import Mathlib

/-!
Verification development for the room-based signaling relay implemented in
`src/server/src/index.ts` of the webrtc-video-call repository.

The server is embedded shallowly:

* a connected client (one `WebSocket` plus its `Client` record) is identified by
  a natural number allocated by a monotone counter;
* the global `rooms : Map<string, Set<Client>>` becomes a function
  `String → Option (List Nat)` (JS `Set` iteration order is insertion order, so
  a duplicate-free list is the faithful image of a `Set`);
* the per-client record `{ ws, username?, roomId? }` becomes `Client` below,
  with `wsOpen` standing for `ws.readyState === WebSocket.OPEN`
  (a socket is open from the connection event until its close event);
* inbound data is the result of `JSON.parse` (`none` when parsing throws),
  modelled by the `Json` inductive; outbound messages are the JSON objects the
  server builds, modelled by `OutMsg` (`OutMsg.relay` keeps the inbound value
  unchanged, which is the image of re-serialising the parsed frame);
* each transport event (connection, message, close) is processed atomically,
  matching the single-threaded event loop, and returns the list of
  `(recipient, message)` sends it performed, in order.

JavaScript truthiness is modelled faithfully for the `string | undefined`
fields `client.roomId` and `client.username`: both `undefined` and the empty
string are falsy (`truthyS`).  This is load-bearing: the server never
validates room ids, so a client may join the room named `""`, and every
`if (client.roomId)` guard then misbehaves.
-/

namespace SignalingServer

/-- Parsed JSON values (the result of a successful `JSON.parse`). -/
inductive Json where
  | null
  | bool (b : Bool)
  | num (n : Int)
  | str (s : String)
  | arr (elems : List Json)
  | obj (fields : List (String × Json))

/-- JS property access `v[k]` on a parsed JSON value that is not `null`
(`null` property access throws and is handled at each use site).
`none` is JS `undefined`: objects without the key, and primitives/arrays,
yield `undefined` for the keys the server reads. -/
def jsGet : Json → String → Option Json
  | .obj fields, k => (fields.find? (fun kv => kv.1 == k)).map (fun kv => kv.2)
  | _, _ => none

/-- Messages the server writes to a socket (`ws.send(JSON.stringify msg)`).
The first five constructors are the objects built by the server itself;
`relay` is an inbound frame forwarded unchanged. -/
inductive OutMsg where
  | roomJoined (roomId : String)
  | roomFull (roomId : String) (maxSize : Nat)
  | userJoined (username : String)
  | userLeft (username : String)
  | userCount (count : Nat)
  | relay (frame : Json)

/-- The per-connection record `type Client = { ws; username?; roomId? }`.
`wsOpen` is `ws.readyState === WebSocket.OPEN`. -/
structure Client where
  wsOpen : Bool
  username : Option String
  roomId : Option String
deriving DecidableEq

/-- The server's mutable state: the id counter for accepted connections, the
heap of per-connection records, and the `rooms` map.  A client id `c` with
`nextId ≤ c` has never been allocated and holds the default record. -/
structure SState where
  nextId : Nat
  cstate : Nat → Client
  rooms : String → Option (List Nat)

/-- State at server start: no connections, no rooms. -/
def initState : SState :=
  { nextId := 0, cstate := fun _ => ⟨false, none, none⟩, rooms := fun _ => none }

/-- JS truthiness of a `string | undefined` value: `undefined` and `""` are
falsy, every other string is truthy. -/
def truthyS : Option String → Bool
  | none => false
  | some s => !(s == "")

/-- Pointwise update of the rooms map (`rooms.set` / `rooms.delete`). -/
def updRoom (f : String → Option (List Nat)) (r : String) (v : Option (List Nat)) :
    String → Option (List Nat) :=
  fun x => if x = r then v else f x

/-- Pointwise update of the client heap (mutation of one `Client` record). -/
def updClient (f : Nat → Client) (c : Nat) (v : Client) : Nat → Client :=
  fun x => if x = c then v else f x

/-- `const MAX_ROOM_SIZE = 2`. -/
def MAX_ROOM_SIZE : Nat := 2

/-- The `client.ws !== excludeClient` test inside `broadcastToRoom`
(`excludeClient` may be `undefined`, which never equals a socket). -/
def notExcluded (excludeClient : Option Nat) (x : Nat) : Bool :=
  match excludeClient with
  | some e => x != e
  | none => true

/-- `broadcastToRoom(roomId, msg, excludeClient?)`: iterate the room's member
set in insertion order and send to every member that is not the excluded
socket and whose socket is open.  Returns the sends performed. -/
def broadcastToRoom (st : SState) (roomId : String) (msg : OutMsg)
    (excludeClient : Option Nat) : List (Nat × OutMsg) :=
  match st.rooms roomId with
  | none => []
  | some roomClients =>
    (roomClients.filter (fun c => notExcluded excludeClient c && (st.cstate c).wsOpen)).map
      (fun c => (c, msg))

/-- Lines 136–137 of `leaveRoom`: `client.roomId = undefined;
client.username = undefined;` (the socket field is untouched). -/
def clearClient (st : SState) (c : Nat) : SState :=
  { st with cstate := updClient st.cstate c ⟨(st.cstate c).wsOpen, none, none⟩ }

/-- `leaveRoom(client)`.  Mirrors the source line by line:
`if (!client.roomId) return;` (truthiness!), look up the room, broadcast
`user-left` excluding the leaver when `client.username` is truthy, delete the
member, broadcast the updated `room-user-count` to the remaining members,
delete the room if it became empty, then clear the client's fields. -/
def leaveRoom (st : SState) (c : Nat) : SState × List (Nat × OutMsg) :=
  if truthyS (st.cstate c).roomId then
    let rid := (st.cstate c).roomId.getD ""
    match st.rooms rid with
    | none => (clearClient st c, [])
    | some roomClients =>
      let tr1 :=
        if truthyS (st.cstate c).username then
          broadcastToRoom st rid (OutMsg.userLeft ((st.cstate c).username.getD "")) (some c)
        else []
      let m' := roomClients.erase c
      let st1 : SState := { st with rooms := updRoom st.rooms rid (some m') }
      let tr2 := broadcastToRoom st1 rid (OutMsg.userCount m'.length) none
      let st2 : SState :=
        if m'.length = 0 then { st1 with rooms := updRoom st1.rooms rid none } else st1
      (clearClient st2 c, tr1 ++ tr2)
  else (st, [])

/-- The first statement of `joinRoom`:
`if (client.roomId) { leaveRoom(client); }`. -/
def joinPhase0 (st : SState) (c : Nat) : SState × List (Nat × OutMsg) :=
  if truthyS (st.cstate c).roomId then leaveRoom st c else (st, [])

/-- The admission half of `joinRoom` (lines 67–99), reached when the room is
not full: set `client.roomId`/`client.username`, create the room if absent,
add the client to the member set (`Set.add`: a no-op when already present),
send `room-joined` to the joiner, broadcast `user-joined` excluding the
joiner, then broadcast `room-user-count` (the size after insertion) to the
whole room.  `tr` is the trace accumulated by the leave phase. -/
def joinAdmit (st : SState) (tr : List (Nat × OutMsg)) (c : Nat)
    (roomId username : String) : SState × List (Nat × OutMsg) :=
  let st1 : SState :=
    { st with cstate := updClient st.cstate c ⟨(st.cstate c).wsOpen, some username, some roomId⟩ }
  let members0 := (st1.rooms roomId).getD []
  let members1 := if c ∈ members0 then members0 else members0 ++ [c]
  let st2 : SState := { st1 with rooms := updRoom st1.rooms roomId (some members1) }
  let trUser := broadcastToRoom st2 roomId (OutMsg.userJoined username) (some c)
  let roomSize := ((st2.rooms roomId).getD []).length
  let trCount := broadcastToRoom st2 roomId (OutMsg.userCount roomSize) none
  (st2, tr ++ (c, OutMsg.roomJoined roomId) :: (trUser ++ trCount))

/-- `joinRoom(client, roomId, username)`: leave the current room when the
`roomId` field is truthy, then reject with `room-full` when the target room
exists and already has `MAX_ROOM_SIZE` members, otherwise admit. -/
def joinRoom (st : SState) (c : Nat) (roomId username : String) :
    SState × List (Nat × OutMsg) :=
  match (joinPhase0 st c).1.rooms roomId with
  | some existingRoom =>
    if MAX_ROOM_SIZE ≤ existingRoom.length then
      ((joinPhase0 st c).1, (joinPhase0 st c).2 ++ [(c, OutMsg.roomFull roomId MAX_ROOM_SIZE)])
    else joinAdmit (joinPhase0 st c).1 (joinPhase0 st c).2 c roomId username
  | none => joinAdmit (joinPhase0 st c).1 (joinPhase0 st c).2 c roomId username

/-- The `else if (client.roomId)` arm of the message handler: forward the
parsed frame, unchanged, to the sender's room, excluding the sender; drop it
when the `roomId` field is falsy. -/
def relayFrame (st : SState) (c : Nat) (msg : Json) : SState × List (Nat × OutMsg) :=
  if truthyS (st.cstate c).roomId then
    (st, broadcastToRoom st ((st.cstate c).roomId.getD "") (OutMsg.relay msg) (some c))
  else (st, [])

/-- The `ws.on("message")` handler.  `data = none` is a frame on which
`JSON.parse` threw (caught and logged, nothing else happens).  A parsed
`null` throws at `msg.type`, likewise caught.  A frame whose `type` property
is the string `"join-room"` goes to `joinRoom`, reading
`msg.payload.roomId` / `msg.payload.username`; when `payload` is absent or
`null` that property access throws and the catch block drops the frame.
Any other frame goes to the relay arm.  A `"join-room"` frame whose extracted
`roomId`/`username` are not both strings is outside this embedding: in JS,
property access on a non-object payload yields `undefined` without throwing,
so the code would run `joinRoom` with the raw JS values — mutating state and
replying `room-joined` — and key the rooms map by a non-string value.  Such
frames are excluded by `wfFrame` below, this branch is never reached from
`Reachable`, and the `(st, [])` it returns (a placeholder, not the JS
behaviour) is relied upon by no theorem. -/
def handleMessage (st : SState) (c : Nat) (data : Option Json) :
    SState × List (Nat × OutMsg) :=
  match data with
  | none => (st, [])
  | some Json.null => (st, [])
  | some msg =>
    match jsGet msg "type" with
    | some (Json.str ty) =>
      if ty = "join-room" then
        match jsGet msg "payload" with
        | none => (st, [])
        | some Json.null => (st, [])
        | some p =>
          match jsGet p "roomId", jsGet p "username" with
          | some (Json.str rid), some (Json.str un) => joinRoom st c rid un
          | _, _ => (st, [])
      else relayFrame st c msg
    | _ => relayFrame st c msg

/-- The `ws.on("close")` handler: `leaveRoom(client); clients.delete(ws);`.
Removing the registry entry and the closed socket are both captured by
clearing `wsOpen` (the record itself may survive inside a member set, exactly
as the JS object does). -/
def handleClose (st : SState) (c : Nat) : SState × List (Nat × OutMsg) :=
  let p := leaveRoom st c
  let closed : Client := ⟨false, (p.1.cstate c).username, (p.1.cstate c).roomId⟩
  ({ p.1 with cstate := updClient p.1.cstate c closed }, p.2)

/-- The `wss.on("connection")` handler: allocate a fresh id, record an open
idle client.  The server sends nothing on connection. -/
def connectClient (st : SState) : SState × List (Nat × OutMsg) :=
  ({ nextId := st.nextId + 1,
     cstate := updClient st.cstate st.nextId ⟨true, none, none⟩,
     rooms := st.rooms }, [])

/-- Transport events consumed by the relay. -/
inductive Event where
  | connect
  | message (c : Nat) (data : Option Json)
  | close (c : Nat)

/-- `true` for the `"join-room"` dispatch of the message handler:
the frame's `type` property is exactly the string `"join-room"`. -/
def isJoinType (m : Json) : Bool :=
  match jsGet m "type" with
  | some (Json.str s) => s == "join-room"
  | _ => false

/-- `true` when the frame's `type` property is a string — the first half of
the documented frame shape `{type: string, payload?: object}`. -/
def hasStringType (m : Json) : Bool :=
  match jsGet m "type" with
  | some (Json.str _) => true
  | _ => false

/-- Frames whose handling this embedding covers: everything except a
`"join-room"` frame whose payload is an accessible object carrying a
non-string `roomId` or `username` (the code would then key the rooms map by
a non-string JS value). -/
def wfFrame : Option Json → Bool
  | none => true
  | some Json.null => true
  | some m =>
    match jsGet m "type" with
    | some (Json.str ty) =>
      if ty = "join-room" then
        match jsGet m "payload" with
        | none => true
        | some Json.null => true
        | some p =>
          match jsGet p "roomId", jsGet p "username" with
          | some (Json.str _), some (Json.str _) => true
          | _, _ => false
      else true
    | _ => true

/-- Events the transport can actually deliver: message and close events only
arrive for sockets that are still open (a socket's close event fires once,
and no message event follows it), and the frame must be covered by the
embedding. -/
def wfEvent (st : SState) : Event → Bool
  | .connect => true
  | .message c d => (st.cstate c).wsOpen && wfFrame d
  | .close c => (st.cstate c).wsOpen

/-- One atomic turn of the event loop. -/
def applyEvent (st : SState) : Event → SState × List (Nat × OutMsg)
  | .connect => connectClient st
  | .message c d => handleMessage st c d
  | .close c => handleClose st c

/-- States the relay can be in: the initial state, closed under well-formed
events. -/
inductive Reachable : SState → Prop where
  | init : Reachable initState
  | next : ∀ {st : SState} (e : Event), Reachable st → wfEvent st e = true →
      Reachable (applyEvent st e).1

/-- Run a list of events (used to build concrete reachable states). -/
def runEvents (st : SState) : List Event → SState
  | [] => st
  | e :: es => runEvents (applyEvent st e).1 es

/-- All events of the list are well-formed along the run. -/
def wfRun (st : SState) : List Event → Bool
  | [] => true
  | e :: es => wfEvent st e && wfRun (applyEvent st e).1 es

theorem reachable_runEvents {st : SState} (es : List Event) (h : Reachable st)
    (hwf : wfRun st es = true) : Reachable (runEvents st es) := by
  induction es generalizing st with
  | nil => exact h
  | cons e es ih =>
    rw [wfRun, Bool.and_eq_true] at hwf
    exact ih (Reachable.next e h hwf.1) hwf.2

/-! ### Basic lemmas about the state primitives -/

@[simp]
theorem updRoom_self (f : String → Option (List Nat)) (r : String) (v : Option (List Nat)) :
    updRoom f r v r = v := by
  simp [updRoom]

theorem updRoom_ne (f : String → Option (List Nat)) {r x : String} (v : Option (List Nat))
    (h : x ≠ r) : updRoom f r v x = f x := by
  simp [updRoom, h]

theorem updRoom_updRoom (f : String → Option (List Nat)) (r : String)
    (v w : Option (List Nat)) : updRoom (updRoom f r v) r w = updRoom f r w := by
  funext x
  by_cases hx : x = r <;> simp [updRoom, hx]

@[simp]
theorem updClient_self (f : Nat → Client) (c : Nat) (v : Client) :
    updClient f c v c = v := by
  simp [updClient]

theorem updClient_ne (f : Nat → Client) {c x : Nat} (v : Client) (h : x ≠ c) :
    updClient f c v x = f x := by
  simp [updClient, h]

theorem truthyS_some_of_ne {s : String} (h : s ≠ "") : truthyS (some s) = true := by
  simp [truthyS, h]

theorem truthyS_eq_false_iff (o : Option String) :
    truthyS o = false ↔ o = none ∨ o = some "" := by
  cases o with
  | none => simp [truthyS]
  | some s =>
    by_cases hs : s = "" <;> simp [truthyS, hs]

theorem truthyS_eq_true_iff (o : Option String) :
    truthyS o = true ↔ ∃ s, o = some s ∧ s ≠ "" := by
  cases o with
  | none => simp [truthyS]
  | some s =>
    by_cases hs : s = "" <;> simp [truthyS, hs]

/-! ### The inductive invariant of the server state -/

/-- The inductive invariant of the relay.  Everything the claims need about
reachable states:

* `fresh`/`freshRoom`: never-allocated ids hold the default record and sit in
  no member set;
* `nonempty`/`size`/`nodup`: a room in the directory has `1` or
  `MAX_ROOM_SIZE` distinct members;
* `back`/`live`: a member of a room with a non-empty (truthy) id has its
  `roomId` field pointing back at that room and its socket open;
* `memOf`: a client whose `roomId` field holds a non-empty id is listed in
  that room.

The room named `""` is exempt from the last three: its id is falsy, so the
code's truthiness guards let clients desert it without bookkeeping. -/
structure Inv (st : SState) : Prop where
  fresh : ∀ c, st.nextId ≤ c → st.cstate c = ⟨false, none, none⟩
  freshRoom : ∀ c r m, st.nextId ≤ c → st.rooms r = some m → c ∉ m
  nonempty : ∀ r m, st.rooms r = some m → m ≠ []
  size : ∀ r m, st.rooms r = some m → m.length ≤ MAX_ROOM_SIZE
  nodup : ∀ r m, st.rooms r = some m → m.Nodup
  back : ∀ r m c, st.rooms r = some m → c ∈ m → r ≠ "" → (st.cstate c).roomId = some r
  live : ∀ r m c, st.rooms r = some m → c ∈ m → r ≠ "" → (st.cstate c).wsOpen = true
  memOf : ∀ c r, (st.cstate c).roomId = some r → r ≠ "" → ∃ m, st.rooms r = some m ∧ c ∈ m

theorem inv_initState : Inv initState := by
  constructor <;> intros <;> simp_all [initState]

/-! ### Broadcast characterization -/

theorem broadcastToRoom_of_none {st : SState} {rid : String} (msg : OutMsg)
    (ex : Option Nat) (h : st.rooms rid = none) :
    broadcastToRoom st rid msg ex = [] := by
  simp [broadcastToRoom, h]

theorem broadcastToRoom_of_some {st : SState} {rid : String} {m : List Nat} (msg : OutMsg)
    (ex : Option Nat) (h : st.rooms rid = some m) :
    broadcastToRoom st rid msg ex =
      (m.filter (fun c => notExcluded ex c && (st.cstate c).wsOpen)).map (fun c => (c, msg)) := by
  simp [broadcastToRoom, h]

theorem filter_excl_eq_erase {st : SState} {m : List Nat} (c : Nat) (hnd : m.Nodup)
    (hl : ∀ x ∈ m, (st.cstate x).wsOpen = true) :
    m.filter (fun x => notExcluded (some c) x && (st.cstate x).wsOpen) = m.erase c := by
  have h1 : m.filter (fun x => notExcluded (some c) x && (st.cstate x).wsOpen)
      = m.filter (fun x => x != c) := by
    apply List.filter_congr
    intro x hx
    rw [hl x hx]
    simp [notExcluded]
  rw [h1, hnd.erase_eq_filter]

theorem filter_noexcl_eq {st : SState} {m : List Nat}
    (hl : ∀ x ∈ m, (st.cstate x).wsOpen = true) :
    m.filter (fun x => notExcluded none x && (st.cstate x).wsOpen) = m := by
  have h1 : m.filter (fun x => notExcluded none x && (st.cstate x).wsOpen)
      = m.filter (fun _ => true) := by
    apply List.filter_congr
    intro x hx
    rw [hl x hx]
    simp [notExcluded]
  rw [h1, List.filter_true]

/-- Broadcast with exclusion over a room with non-empty id, in a state
satisfying the invariant: exactly the other members receive, in order. -/
theorem broadcast_excl_eq {st : SState} {rid : String} {m : List Nat} (hInv : Inv st)
    (hne : rid ≠ "") (h : st.rooms rid = some m) (msg : OutMsg) (c : Nat) :
    broadcastToRoom st rid msg (some c) = (m.erase c).map (fun x => (x, msg)) := by
  rw [broadcastToRoom_of_some msg (some c) h,
    filter_excl_eq_erase c (hInv.nodup rid m h) (fun x hx => hInv.live rid m x h hx hne)]

/-- Broadcast without exclusion over a room with non-empty id: every member
receives, in order. -/
theorem broadcast_all_eq {st : SState} {rid : String} {m : List Nat} (hInv : Inv st)
    (hne : rid ≠ "") (h : st.rooms rid = some m) (msg : OutMsg) :
    broadcastToRoom st rid msg none = m.map (fun x => (x, msg)) := by
  rw [broadcastToRoom_of_some msg none h,
    filter_noexcl_eq (fun x hx => hInv.live rid m x h hx hne)]

/-! ### Case equations and component lemmas for `leaveRoom` -/

theorem leaveRoom_of_falsy {st : SState} {c : Nat}
    (h : truthyS (st.cstate c).roomId = false) : leaveRoom st c = (st, []) := by
  simp [leaveRoom, h]

theorem leaveRoom_of_noroom {st : SState} {c : Nat} {rid : String}
    (hrid : (st.cstate c).roomId = some rid) (hne : rid ≠ "")
    (hro : st.rooms rid = none) : leaveRoom st c = (clearClient st c, []) := by
  simp [leaveRoom, hrid, truthyS_some_of_ne hne, hro]

theorem leaveRoom_of_room {st : SState} {c : Nat} {rid : String} {m : List Nat}
    (hrid : (st.cstate c).roomId = some rid) (hne : rid ≠ "")
    (hro : st.rooms rid = some m) :
    leaveRoom st c =
      (clearClient
        (if (m.erase c).length = 0 then { st with rooms := updRoom st.rooms rid none }
         else { st with rooms := updRoom st.rooms rid (some (m.erase c)) }) c,
       (if truthyS (st.cstate c).username then
          broadcastToRoom st rid (OutMsg.userLeft ((st.cstate c).username.getD "")) (some c)
        else []) ++
       broadcastToRoom { st with rooms := updRoom st.rooms rid (some (m.erase c)) } rid
         (OutMsg.userCount (m.erase c).length) none) := by
  simp only [leaveRoom, hrid, truthyS_some_of_ne hne, if_true, Option.getD_some, hro,
    updRoom_updRoom]

theorem leaveRoom_nextId (st : SState) (c : Nat) :
    (leaveRoom st c).1.nextId = st.nextId := by
  by_cases ht : truthyS (st.cstate c).roomId = true
  · obtain ⟨rid, hrid, hne⟩ := (truthyS_eq_true_iff _).1 ht
    cases hro : st.rooms rid with
    | none => rw [leaveRoom_of_noroom hrid hne hro]; rfl
    | some m =>
      rw [leaveRoom_of_room hrid hne hro]
      by_cases hlen : (m.erase c).length = 0 <;> simp [hlen, clearClient]
  · rw [leaveRoom_of_falsy (by simpa using ht)]

theorem leaveRoom_wsOpen (st : SState) (c x : Nat) :
    ((leaveRoom st c).1.cstate x).wsOpen = (st.cstate x).wsOpen := by
  by_cases ht : truthyS (st.cstate c).roomId = true
  · obtain ⟨rid, hrid, hne⟩ := (truthyS_eq_true_iff _).1 ht
    cases hro : st.rooms rid with
    | none =>
      rw [leaveRoom_of_noroom hrid hne hro]
      by_cases hxc : x = c <;> simp [clearClient, updClient, hxc]
    | some m =>
      rw [leaveRoom_of_room hrid hne hro]
      by_cases hlen : (m.erase c).length = 0 <;>
        (by_cases hxc : x = c <;> simp [hlen, clearClient, updClient, hxc])
  · rw [leaveRoom_of_falsy (by simpa using ht)]

theorem leaveRoom_roomId_self (st : SState) (c : Nat) :
    truthyS ((leaveRoom st c).1.cstate c).roomId = false := by
  by_cases ht : truthyS (st.cstate c).roomId = true
  · obtain ⟨rid, hrid, hne⟩ := (truthyS_eq_true_iff _).1 ht
    cases hro : st.rooms rid with
    | none =>
      rw [leaveRoom_of_noroom hrid hne hro]
      simp [clearClient, updClient, truthyS]
    | some m =>
      rw [leaveRoom_of_room hrid hne hro]
      by_cases hlen : (m.erase c).length = 0 <;>
        simp [hlen, clearClient, updClient, truthyS]
  · rw [leaveRoom_of_falsy (by simpa using ht)]
    simpa using ht

/-- Invariant preservation for the state a truthy-room leave produces.
`v` is the room's new directory entry. -/
theorem inv_afterLeave {st : SState} (hInv : Inv st) {c : Nat} {rid : String}
    {m : List Nat} (hrid : (st.cstate c).roomId = some rid) (hne : rid ≠ "")
    (hro : st.rooms rid = some m) (v : Option (List Nat))
    (hv : v = if (m.erase c).length = 0 then none else some (m.erase c)) :
    Inv (clearClient { st with rooms := updRoom st.rooms rid v } c) := by
  have hnd := hInv.nodup rid m hro
  have hcs : ∀ x, (clearClient { st with rooms := updRoom st.rooms rid v } c).cstate x
      = if x = c then ⟨(st.cstate c).wsOpen, none, none⟩ else st.cstate x := by
    intro x
    by_cases hxc : x = c <;> simp [clearClient, updClient, hxc]
  have hrs : ∀ r, (clearClient { st with rooms := updRoom st.rooms rid v } c).rooms r
      = if r = rid then v else st.rooms r := by
    intro r
    by_cases hr : r = rid <;> simp [clearClient, updRoom, hr]
  have hnid : (clearClient { st with rooms := updRoom st.rooms rid v } c).nextId
      = st.nextId := rfl
  have hclt : c < st.nextId := by
    by_contra hc
    have := hInv.fresh c (Nat.le_of_not_lt hc)
    rw [this] at hrid
    exact Option.noConfusion hrid
  have hmem_of : ∀ {x m2}, (if (m.erase c).length = 0 then none
        else some (m.erase c) : Option (List Nat)) = some m2 → x ∈ m2 →
      x ≠ c ∧ x ∈ m := by
    intro x m2 hm2 hx
    split at hm2
    · exact Option.noConfusion hm2
    · cases hm2
      exact ⟨(hnd.mem_erase_iff.1 hx).1, (hnd.mem_erase_iff.1 hx).2⟩
  subst hv
  constructor
  · intro x hx
    rw [hnid] at hx
    rw [hcs]
    have hxc : x ≠ c := fun h => absurd (h ▸ hx) (Nat.not_le_of_lt hclt)
    rw [if_neg hxc]
    exact hInv.fresh x hx
  · intro x r m2 hx hm2
    rw [hnid] at hx
    rw [hrs] at hm2
    split at hm2
    · intro hmem
      exact hInv.freshRoom x rid m hx hro (hmem_of hm2 hmem).2
    · exact hInv.freshRoom x r m2 hx hm2
  · intro r m2 hm2
    rw [hrs] at hm2
    split at hm2
    · split at hm2
      · exact Option.noConfusion hm2
      · next hlen =>
        cases hm2
        intro hnil
        exact hlen (by rw [hnil]; rfl)
    · exact hInv.nonempty r m2 hm2
  · intro r m2 hm2
    rw [hrs] at hm2
    split at hm2
    · split at hm2
      · exact Option.noConfusion hm2
      · cases hm2
        exact le_trans (m.erase_sublist c).length_le (hInv.size rid m hro)
    · exact hInv.size r m2 hm2
  · intro r m2 hm2
    rw [hrs] at hm2
    split at hm2
    · split at hm2
      · exact Option.noConfusion hm2
      · cases hm2
        exact hnd.erase c
    · exact hInv.nodup r m2 hm2
  · intro r m2 x hm2 hx hrne
    rw [hrs] at hm2
    rw [hcs]
    split at hm2
    · next hr =>
      subst hr
      obtain ⟨hxc, hxm⟩ := hmem_of hm2 hx
      rw [if_neg hxc]
      exact hInv.back r m x hro hxm hrne
    · next hr =>
      have hxc : x ≠ c := by
        intro h
        subst h
        have := hInv.back r m2 x hm2 hx hrne
        rw [hrid] at this
        cases this
        exact hr rfl
      rw [if_neg hxc]
      exact hInv.back r m2 x hm2 hx hrne
  · intro r m2 x hm2 hx hrne
    rw [hrs] at hm2
    rw [hcs]
    by_cases hxc : x = c
    · rw [if_pos hxc]
      subst hxc
      exact hInv.live rid m x hro (by
        split at hm2
        · exact (hmem_of hm2 hx).2
        · exact absurd (hInv.back r m2 x hm2 hx hrne)
            (by rw [hrid]; intro hcon; cases hcon; simp_all)) hne
    · rw [if_neg hxc]
      split at hm2
      · next hr =>
        subst hr
        exact hInv.live r m x hro (hmem_of hm2 hx).2 hrne
      · exact hInv.live r m2 x hm2 hx hrne
  · intro x r hx hrne
    rw [hcs] at hx
    by_cases hxc : x = c
    · rw [if_pos hxc] at hx
      exact Option.noConfusion hx
    · rw [if_neg hxc] at hx
      obtain ⟨m2, hm2, hxm2⟩ := hInv.memOf x r hx hrne
      by_cases hr : r = rid
      · subst hr
        rw [hro] at hm2
        injection hm2 with hme
        subst hme
        have hxe : x ∈ m.erase c := hnd.mem_erase_iff.2 ⟨hxc, hxm2⟩
        have hlen : ¬(m.erase c).length = 0 := by
          intro h0
          rw [List.length_eq_zero] at h0
          rw [h0] at hxe
          exact List.not_mem_nil x hxe
        refine ⟨m.erase c, ?_, hxe⟩
        rw [hrs, if_pos rfl, if_neg hlen]
      · refine ⟨m2, ?_, hxm2⟩
        rw [hrs, if_neg hr]
        exact hm2

theorem inv_leaveRoom {st : SState} (hInv : Inv st) (c : Nat) :
    Inv (leaveRoom st c).1 := by
  by_cases ht : truthyS (st.cstate c).roomId = true
  · obtain ⟨rid, hrid, hne⟩ := (truthyS_eq_true_iff _).1 ht
    obtain ⟨m, hro, _⟩ := hInv.memOf c rid hrid hne
    rw [leaveRoom_of_room hrid hne hro]
    by_cases hlen : (m.erase c).length = 0
    · simpa [hlen] using inv_afterLeave hInv hrid hne hro none (by rw [if_pos hlen])
    · simpa [hlen] using
        inv_afterLeave hInv hrid hne hro (some (m.erase c)) (by rw [if_neg hlen])
  · rw [leaveRoom_of_falsy (by simpa using ht)]
    exact hInv

/-! ### Invariant preservation for join, message handling, close, connect -/

/-- The member list `joinAdmit` stores for the target room. -/
def joinNewMembers (st : SState) (c : Nat) (R : String) : List Nat :=
  if c ∈ (st.rooms R).getD [] then (st.rooms R).getD [] else (st.rooms R).getD [] ++ [c]

theorem joinAdmit_fst (st : SState) (tr : List (Nat × OutMsg)) (c : Nat) (R u : String) :
    (joinAdmit st tr c R u).1 =
      { nextId := st.nextId,
        cstate := updClient st.cstate c ⟨(st.cstate c).wsOpen, some u, some R⟩,
        rooms := updRoom st.rooms R (some (joinNewMembers st c R)) } := rfl

theorem inv_joinAdmit {st : SState} {c : Nat} {R : String} (hInv : Inv st)
    (hopen : (st.cstate c).wsOpen = true)
    (hfal : truthyS (st.cstate c).roomId = false)
    (hguard : ∀ em, st.rooms R = some em → em.length < MAX_ROOM_SIZE)
    (tr : List (Nat × OutMsg)) (u : String) :
    Inv (joinAdmit st tr c R u).1 := by
  have hnid : (joinAdmit st tr c R u).1.nextId = st.nextId := rfl
  have hcs : (joinAdmit st tr c R u).1.cstate
      = updClient st.cstate c ⟨(st.cstate c).wsOpen, some u, some R⟩ := rfl
  have hrs : (joinAdmit st tr c R u).1.rooms
      = updRoom st.rooms R (some (joinNewMembers st c R)) := rfl
  have hclt : c < st.nextId := by
    by_contra hc
    have := hInv.fresh c (Nat.le_of_not_lt hc)
    rw [this] at hopen
    exact Bool.noConfusion hopen
  have hcnot : ∀ r m2, st.rooms r = some m2 → r ≠ "" → c ∉ m2 := by
    intro r m2 hm2 hrne hmem
    have := hInv.back r m2 c hm2 hmem hrne
    rw [this] at hfal
    rcases (truthyS_eq_false_iff _).1 hfal with h | h
    · exact Option.noConfusion h
    · injection h with h
      exact hrne h
  have hmem_new : ∀ x, x ∈ joinNewMembers st c R → x = c ∨ x ∈ (st.rooms R).getD [] := by
    intro x hx
    unfold joinNewMembers at hx
    split at hx
    · exact Or.inr hx
    · rcases List.mem_append.1 hx with h | h
      · exact Or.inr h
      · exact Or.inl (List.mem_singleton.1 h)
  have hc_new : c ∈ joinNewMembers st c R := by
    unfold joinNewMembers
    split
    · assumption
    · exact List.mem_append.2 (Or.inr (List.mem_singleton.2 rfl))
  have hsub_new : ∀ x, x ∈ (st.rooms R).getD [] → x ∈ joinNewMembers st c R := by
    intro x hx
    unfold joinNewMembers
    split
    · exact hx
    · exact List.mem_append.2 (Or.inl hx)
  have hgetD : ∀ x, x ∈ (st.rooms R).getD [] → ∃ em, st.rooms R = some em ∧ x ∈ em := by
    intro x hx
    cases hsr : st.rooms R with
    | none => rw [hsr] at hx; exact absurd hx (List.not_mem_nil x)
    | some em => exact ⟨em, rfl, by rwa [hsr] at hx⟩
  constructor
  · simp only [hnid, hcs, hrs]
    intro x hx
    have hxc : x ≠ c := fun h => absurd (h ▸ hx) (Nat.not_le_of_lt hclt)
    rw [updClient_ne _ _ hxc]
    exact hInv.fresh x hx
  · simp only [hnid, hcs, hrs]
    intro x r m2 hx hm2
    intro hmem
    by_cases hr : r = R
    · subst hr
      rw [updRoom_self] at hm2
      injection hm2 with hm2
      subst hm2
      rcases hmem_new x hmem with h | h
      · exact absurd (h ▸ hx) (Nat.not_le_of_lt hclt)
      · obtain ⟨em, hem, hxem⟩ := hgetD x h
        exact hInv.freshRoom x r em hx hem hxem
    · rw [updRoom_ne _ _ hr] at hm2
      exact hInv.freshRoom x r m2 hx hm2 hmem
  · simp only [hnid, hcs, hrs]
    intro r m2 hm2
    by_cases hr : r = R
    · subst hr
      rw [updRoom_self] at hm2
      injection hm2 with hm2
      subst hm2
      exact List.ne_nil_of_mem hc_new
    · rw [updRoom_ne _ _ hr] at hm2
      exact hInv.nonempty r m2 hm2
  · simp only [hnid, hcs, hrs]
    intro r m2 hm2
    by_cases hr : r = R
    · subst hr
      rw [updRoom_self] at hm2
      injection hm2 with hm2
      subst hm2
      unfold joinNewMembers
      split
      · next hcm =>
        obtain ⟨em, hem, _⟩ := hgetD c hcm
        rw [hem]
        exact hInv.size r em hem
      · rw [List.length_append]
        cases hsr : st.rooms r with
        | none => simp [hsr, MAX_ROOM_SIZE]
        | some em =>
          have hlt : em.length < 2 := hguard em hsr
          simp only [hsr, Option.getD_some, List.length_singleton]
          show em.length + 1 ≤ 2
          omega
    · rw [updRoom_ne _ _ hr] at hm2
      exact hInv.size r m2 hm2
  · simp only [hnid, hcs, hrs]
    intro r m2 hm2
    by_cases hr : r = R
    · subst hr
      rw [updRoom_self] at hm2
      injection hm2 with hm2
      subst hm2
      unfold joinNewMembers
      split
      · next hcm =>
        obtain ⟨em, hem, _⟩ := hgetD c hcm
        rw [hem]
        exact hInv.nodup r em hem
      · next hcm =>
        rw [List.nodup_append]
        refine ⟨?_, List.nodup_singleton c, ?_⟩
        · cases hsr : st.rooms r with
          | none => simp
          | some em =>
            simp only [hsr, Option.getD_some]
            exact hInv.nodup r em hsr
        · intro x hx hxc
          rw [List.mem_singleton.1 hxc] at hx
          exact hcm hx
    · rw [updRoom_ne _ _ hr] at hm2
      exact hInv.nodup r m2 hm2
  · simp only [hnid, hcs, hrs]
    intro r m2 x hm2 hmem hrne
    by_cases hxc : x = c
    · subst hxc
      by_cases hr : r = R
      · subst hr
        simp [updClient]
      · rw [updRoom_ne _ _ hr] at hm2
        exact absurd hmem (hcnot r m2 hm2 hrne)
    · rw [updClient_ne _ _ hxc]
      by_cases hr : r = R
      · subst hr
        rw [updRoom_self] at hm2
        injection hm2 with hm2
        subst hm2
        rcases hmem_new x hmem with h | h
        · exact absurd h hxc
        · obtain ⟨em, hem, hxem⟩ := hgetD x h
          exact hInv.back r em x hem hxem hrne
      · rw [updRoom_ne _ _ hr] at hm2
        exact hInv.back r m2 x hm2 hmem hrne
  · simp only [hnid, hcs, hrs]
    intro r m2 x hm2 hmem hrne
    by_cases hxc : x = c
    · subst hxc
      simp [updClient, hopen]
    · rw [updClient_ne _ _ hxc]
      by_cases hr : r = R
      · subst hr
        rw [updRoom_self] at hm2
        injection hm2 with hm2
        subst hm2
        rcases hmem_new x hmem with h | h
        · exact absurd h hxc
        · obtain ⟨em, hem, hxem⟩ := hgetD x h
          exact hInv.live r em x hem hxem hrne
      · rw [updRoom_ne _ _ hr] at hm2
        exact hInv.live r m2 x hm2 hmem hrne
  · simp only [hnid, hcs, hrs]
    intro x r hx hrne
    by_cases hxc : x = c
    · subst hxc
      rw [updClient_self] at hx
      have hRr : R = r := by simpa using hx
      rw [← hRr]
      exact ⟨joinNewMembers st x R, updRoom_self _ _ _, hc_new⟩
    · rw [updClient_ne _ _ hxc] at hx
      obtain ⟨m2, hm2, hxm2⟩ := hInv.memOf x r hx hrne
      by_cases hr : r = R
      · subst hr
        refine ⟨joinNewMembers st c r, updRoom_self _ _ _, ?_⟩
        exact hsub_new x (by rw [hm2]; exact hxm2)
      · exact ⟨m2, by rw [updRoom_ne _ _ hr]; exact hm2, hxm2⟩

theorem joinPhase0_inv {st : SState} (hInv : Inv st) (c : Nat) :
    Inv (joinPhase0 st c).1 := by
  unfold joinPhase0
  split
  · exact inv_leaveRoom hInv c
  · exact hInv

theorem joinPhase0_wsOpen (st : SState) (c x : Nat) :
    ((joinPhase0 st c).1.cstate x).wsOpen = (st.cstate x).wsOpen := by
  unfold joinPhase0
  split
  · exact leaveRoom_wsOpen st c x
  · rfl

theorem joinPhase0_roomId_self (st : SState) (c : Nat) :
    truthyS ((joinPhase0 st c).1.cstate c).roomId = false := by
  unfold joinPhase0
  split
  · exact leaveRoom_roomId_self st c
  · next h => simpa using h

theorem inv_joinRoom {st : SState} {c : Nat} (hInv : Inv st)
    (hopen : (st.cstate c).wsOpen = true) (R u : String) :
    Inv (joinRoom st c R u).1 := by
  have hInv0 := joinPhase0_inv hInv c
  have hopen0 : ((joinPhase0 st c).1.cstate c).wsOpen = true := by
    rw [joinPhase0_wsOpen]; exact hopen
  have hfal0 := joinPhase0_roomId_self st c
  unfold joinRoom
  cases hro : (joinPhase0 st c).1.rooms R with
  | none =>
    exact inv_joinAdmit hInv0 hopen0 hfal0 (fun em h => by rw [hro] at h; cases h) _ _
  | some em =>
    dsimp only
    by_cases hlen : MAX_ROOM_SIZE ≤ em.length
    · rw [if_pos hlen]
      exact hInv0
    · rw [if_neg hlen]
      refine inv_joinAdmit hInv0 hopen0 hfal0 (fun em2 h => ?_) _ _
      rw [hro] at h
      injection h with h
      subst h
      exact Nat.lt_of_not_le hlen

theorem relayFrame_fst (st : SState) (c : Nat) (msg : Json) :
    (relayFrame st c msg).1 = st := by
  unfold relayFrame
  split <;> rfl

theorem handleMessage_fst_cases (st : SState) (c : Nat) (d : Option Json) :
    (handleMessage st c d).1 = st ∨
    ∃ rid un, handleMessage st c d = joinRoom st c rid un := by
  unfold handleMessage
  repeat' split
  all_goals
    first
    | exact Or.inl rfl
    | exact Or.inl (relayFrame_fst _ _ _)
    | exact Or.inr ⟨_, _, rfl⟩

theorem inv_handleMessage {st : SState} {c : Nat} (hInv : Inv st)
    (hopen : (st.cstate c).wsOpen = true) (d : Option Json) :
    Inv (handleMessage st c d).1 := by
  rcases handleMessage_fst_cases st c d with h | ⟨rid, un, h⟩
  · rw [h]
    exact hInv
  · rw [h]
    exact inv_joinRoom hInv hopen rid un

theorem handleClose_roomId (st : SState) (c x : Nat) :
    ((handleClose st c).1.cstate x).roomId = ((leaveRoom st c).1.cstate x).roomId := by
  unfold handleClose
  by_cases hxc : x = c <;> simp [updClient, hxc]

theorem handleClose_rooms (st : SState) (c : Nat) :
    (handleClose st c).1.rooms = (leaveRoom st c).1.rooms := rfl

theorem inv_handleClose {st : SState} (hInv : Inv st) (c : Nat) :
    Inv (handleClose st c).1 := by
  have hL := inv_leaveRoom hInv c
  have hcnot : ∀ r m2, (leaveRoom st c).1.rooms r = some m2 → r ≠ "" → c ∉ m2 := by
    intro r m2 hm2 hrne hmem
    have hb := hL.back r m2 c hm2 hmem hrne
    have hfal := leaveRoom_roomId_self st c
    rw [hb] at hfal
    rcases (truthyS_eq_false_iff _).1 hfal with h | h
    · exact Option.noConfusion h
    · injection h with h
      exact hrne h
  have hcs : ∀ x, (handleClose st c).1.cstate x
      = if x = c then ⟨false, ((leaveRoom st c).1.cstate c).username,
          ((leaveRoom st c).1.cstate c).roomId⟩ else (leaveRoom st c).1.cstate x := by
    intro x
    unfold handleClose
    by_cases hxc : x = c <;> simp [updClient, hxc]
  constructor
  · intro x hx
    have hx2 : st.nextId ≤ x := by
      have : (handleClose st c).1.nextId = st.nextId := by
        unfold handleClose
        simp [leaveRoom_nextId]
      rwa [this] at hx
    have hfr : (leaveRoom st c).1.cstate x = ⟨false, none, none⟩ := by
      have hInvL := hL
      exact hInvL.fresh x (by rw [leaveRoom_nextId]; exact hx2)
    rw [hcs]
    split
    · next hxc =>
      subst hxc
      rw [hfr]
    · exact hfr
  · intro x r m2 hx hm2
    rw [handleClose_rooms] at hm2
    have hx2 : (leaveRoom st c).1.nextId ≤ x := by
      rw [leaveRoom_nextId]
      have : (handleClose st c).1.nextId = st.nextId := by
        unfold handleClose
        simp [leaveRoom_nextId]
      rwa [this] at hx
    exact hL.freshRoom x r m2 hx2 hm2
  · intro r m2 hm2
    rw [handleClose_rooms] at hm2
    exact hL.nonempty r m2 hm2
  · intro r m2 hm2
    rw [handleClose_rooms] at hm2
    exact hL.size r m2 hm2
  · intro r m2 hm2
    rw [handleClose_rooms] at hm2
    exact hL.nodup r m2 hm2
  · intro r m2 x hm2 hmem hrne
    rw [handleClose_rooms] at hm2
    rw [handleClose_roomId]
    exact hL.back r m2 x hm2 hmem hrne
  · intro r m2 x hm2 hmem hrne
    rw [handleClose_rooms] at hm2
    have hxc : x ≠ c := fun h => hcnot r m2 hm2 hrne (h ▸ hmem)
    rw [hcs, if_neg hxc]
    exact hL.live r m2 x hm2 hmem hrne
  · intro x r hx hrne
    rw [handleClose_roomId] at hx
    obtain ⟨m2, hm2, hxm2⟩ := hL.memOf x r hx hrne
    exact ⟨m2, by rw [handleClose_rooms]; exact hm2, hxm2⟩

theorem inv_connectClient {st : SState} (hInv : Inv st) :
    Inv (connectClient st).1 := by
  have hnotin : ∀ r m2, st.rooms r = some m2 → st.nextId ∉ m2 :=
    fun r m2 hm2 => hInv.freshRoom st.nextId r m2 (le_refl _) hm2
  constructor
  · intro x hx
    have hx2 : st.nextId + 1 ≤ x := hx
    have hxn : x ≠ st.nextId := by omega
    simp only [connectClient]
    rw [updClient_ne _ _ hxn]
    exact hInv.fresh x (by omega)
  · intro x r m2 hx hm2
    have hx2 : st.nextId + 1 ≤ x := hx
    exact hInv.freshRoom x r m2 (by omega) hm2
  · intro r m2 hm2
    exact hInv.nonempty r m2 hm2
  · intro r m2 hm2
    exact hInv.size r m2 hm2
  · intro r m2 hm2
    exact hInv.nodup r m2 hm2
  · intro r m2 x hm2 hmem hrne
    have hxn : x ≠ st.nextId := fun h => hnotin r m2 hm2 (h ▸ hmem)
    simp only [connectClient]
    rw [updClient_ne _ _ hxn]
    exact hInv.back r m2 x hm2 hmem hrne
  · intro r m2 x hm2 hmem hrne
    have hxn : x ≠ st.nextId := fun h => hnotin r m2 hm2 (h ▸ hmem)
    simp only [connectClient]
    rw [updClient_ne _ _ hxn]
    exact hInv.live r m2 x hm2 hmem hrne
  · intro x r hx hrne
    by_cases hxn : x = st.nextId
    · subst hxn
      simp only [connectClient, updClient_self] at hx
      exact Option.noConfusion hx
    · simp only [connectClient] at hx
      rw [updClient_ne _ _ hxn] at hx
      exact hInv.memOf x r hx hrne

/-- Every reachable state satisfies the inductive invariant. -/
theorem reachable_inv {st : SState} (h : Reachable st) : Inv st := by
  induction h with
  | init => exact inv_initState
  | next e hR hwf ih =>
    cases e with
    | connect => exact inv_connectClient ih
    | message c d =>
      rw [wfEvent, Bool.and_eq_true] at hwf
      exact inv_handleMessage ih hwf.1 d
    | close c => exact inv_handleClose ih c

/-! ### Trace-level helper lemmas -/

theorem clearClient_rooms (st : SState) (c : Nat) : (clearClient st c).rooms = st.rooms := rfl

theorem clearClient_cstate_self (st : SState) (c : Nat) :
    (clearClient st c).cstate c = ⟨(st.cstate c).wsOpen, none, none⟩ := by
  simp [clearClient]

theorem clearClient_cstate_ne (st : SState) {c x : Nat} (h : x ≠ c) :
    (clearClient st c).cstate x = st.cstate x := by
  simp [clearClient, updClient, h]

/-- A leave only ever touches the directory entry of the leaver's own room. -/
theorem leaveRoom_rooms_other {st : SState} {c : Nat} {r2 : String}
    (h : (st.cstate c).roomId ≠ some r2) :
    (leaveRoom st c).1.rooms r2 = st.rooms r2 := by
  by_cases ht : truthyS (st.cstate c).roomId = true
  · obtain ⟨rid, hrid, hne⟩ := (truthyS_eq_true_iff _).1 ht
    have hr2 : r2 ≠ rid := by
      intro he
      rw [he] at h
      exact h hrid
    cases hro : st.rooms rid with
    | none => rw [leaveRoom_of_noroom hrid hne hro, clearClient_rooms]
    | some m =>
      rw [leaveRoom_of_room hrid hne hro]
      by_cases hlen : (m.erase c).length = 0 <;>
        simp [hlen, clearClient, updRoom_ne _ _ hr2]
  · rw [leaveRoom_of_falsy (by simpa using ht)]

/-- Every message of a broadcast carries the broadcast payload. -/
theorem mem_broadcast_snd {st : SState} {rid : String} {msg : OutMsg} {ex : Option Nat}
    {p : Nat × OutMsg} (hp : p ∈ broadcastToRoom st rid msg ex) : p.2 = msg := by
  unfold broadcastToRoom at hp
  cases h : st.rooms rid with
  | none => rw [h] at hp; exact absurd hp (List.not_mem_nil p)
  | some m =>
    rw [h] at hp
    obtain ⟨a, _, ha⟩ := List.mem_map.1 hp
    rw [← ha]

theorem joinAdmit_snd (st : SState) (tr : List (Nat × OutMsg)) (c : Nat) (R u : String) :
    (joinAdmit st tr c R u).2 =
      tr ++ (c, OutMsg.roomJoined R) ::
        (broadcastToRoom (joinAdmit st tr c R u).1 R (OutMsg.userJoined u) (some c) ++
         broadcastToRoom (joinAdmit st tr c R u).1 R
           (OutMsg.userCount (((joinAdmit st tr c R u).1.rooms R).getD []).length) none) := rfl

/-- The join trace always extends the leave-phase trace. -/
theorem joinRoom_trace_prefix (st : SState) (c : Nat) (R u : String) :
    ∃ rest, (joinRoom st c R u).2 = (joinPhase0 st c).2 ++ rest := by
  unfold joinRoom
  cases hro : (joinPhase0 st c).1.rooms R with
  | none => exact ⟨_, joinAdmit_snd _ _ _ _ _⟩
  | some em =>
    dsimp only
    by_cases hlen : MAX_ROOM_SIZE ≤ em.length
    · rw [if_pos hlen]
      exact ⟨_, rfl⟩
    · rw [if_neg hlen]
      exact ⟨_, joinAdmit_snd _ _ _ _ _⟩

/-- A non-`null` frame whose `type` is not the string `"join-room"` goes to
the relay arm. -/
theorem handleMessage_relay_eq {st : SState} {c : Nat} {msg : Json}
    (hnn : msg ≠ Json.null) (hnj : isJoinType msg = false) :
    handleMessage st c (some msg) = relayFrame st c msg := by
  cases msg with
  | null => exact absurd rfl hnn
  | bool b => rfl
  | num n => rfl
  | str s => rfl
  | arr elems => rfl
  | obj fields =>
    cases hty : jsGet (Json.obj fields) "type" with
    | none => simp [handleMessage, hty]
    | some v =>
      cases v with
      | str s =>
        have hs : ¬s = "join-room" := by
          unfold isJoinType at hnj
          rw [hty] at hnj
          simpa using hnj
        simp [handleMessage, hty, hs]
      | null => simp [handleMessage, hty]
      | bool b => simp [handleMessage, hty]
      | num n => simp [handleMessage, hty]
      | arr elems => simp [handleMessage, hty]
      | obj fs => simp [handleMessage, hty]

/-- The full description of a successful admission (trace and target room),
for a state satisfying the invariant, an open joiner whose `roomId` field is
falsy, and a non-empty target room id. -/
theorem joinAdmit_spec {st : SState} {c : Nat} {R : String} (hInv : Inv st)
    (hopen : (st.cstate c).wsOpen = true) (hfal : truthyS (st.cstate c).roomId = false)
    (hne : R ≠ "") (tr : List (Nat × OutMsg)) (u : String) :
    (joinAdmit st tr c R u).2 =
      tr ++ (c, OutMsg.roomJoined R) ::
        ((((st.rooms R).getD []).map (fun x => (x, OutMsg.userJoined u))) ++
         ((((st.rooms R).getD []) ++ [c]).map
           (fun x => (x, OutMsg.userCount (((st.rooms R).getD []).length + 1))))) ∧
    (joinAdmit st tr c R u).1.rooms R = some (((st.rooms R).getD []) ++ [c]) := by
  have hgetD : ∀ x, x ∈ (st.rooms R).getD [] → ∃ em, st.rooms R = some em ∧ x ∈ em := by
    intro x hx
    cases hsr : st.rooms R with
    | none => rw [hsr] at hx; exact absurd hx (List.not_mem_nil x)
    | some em => exact ⟨em, rfl, by rwa [hsr] at hx⟩
  have hcnot : c ∉ (st.rooms R).getD [] := by
    intro hc
    obtain ⟨em, hem, hcem⟩ := hgetD c hc
    have := hInv.back R em c hem hcem hne
    rw [this] at hfal
    rcases (truthyS_eq_false_iff _).1 hfal with h | h
    · exact Option.noConfusion h
    · injection h with h
      exact hne h
  have hnd0 : ((st.rooms R).getD []).Nodup := by
    cases hsr : st.rooms R with
    | none => simp
    | some em => simpa [hsr] using hInv.nodup R em hsr
  have hlive0 : ∀ x ∈ (st.rooms R).getD [], (st.cstate x).wsOpen = true := by
    intro x hx
    obtain ⟨em, hem, hxem⟩ := hgetD x hx
    exact hInv.live R em x hem hxem hne
  have hjn : joinNewMembers st c R = ((st.rooms R).getD []) ++ [c] := by
    unfold joinNewMembers
    rw [if_neg hcnot]
  have hrooms : (joinAdmit st tr c R u).1.rooms R
      = some (((st.rooms R).getD []) ++ [c]) := by
    have := joinAdmit_fst st tr c R u
    rw [this]
    dsimp only
    rw [updRoom_self, hjn]
  have hcsx : ∀ x, (joinAdmit st tr c R u).1.cstate x
      = if x = c then ⟨(st.cstate c).wsOpen, some u, some R⟩ else st.cstate x := by
    intro x
    rw [joinAdmit_fst]
    dsimp only
    by_cases hxc : x = c <;> simp [updClient, hxc]
  have hliveJ : ∀ x ∈ ((st.rooms R).getD []) ++ [c],
      ((joinAdmit st tr c R u).1.cstate x).wsOpen = true := by
    intro x hx
    rw [hcsx]
    by_cases hxc : x = c
    · rw [if_pos hxc]
      exact hopen
    · rw [if_neg hxc]
      rcases List.mem_append.1 hx with h | h
      · exact hlive0 x h
      · exact absurd (List.mem_singleton.1 h) hxc
  have hndJ : (((st.rooms R).getD []) ++ [c]).Nodup := by
    rw [List.nodup_append]
    refine ⟨hnd0, List.nodup_singleton c, ?_⟩
    intro x hx hxc
    rw [List.mem_singleton.1 hxc] at hx
    exact hcnot hx
  have heraseJ : (((st.rooms R).getD []) ++ [c]).erase c = (st.rooms R).getD [] := by
    rw [List.erase_append_right _ hcnot, List.erase_cons_head, List.append_nil]
  refine ⟨?_, hrooms⟩
  rw [joinAdmit_snd]
  congr 1
  congr 1
  congr 1
  · rw [broadcastToRoom_of_some _ _ hrooms, filter_excl_eq_erase c hndJ hliveJ, heraseJ]
  · rw [broadcastToRoom_of_some _ _ hrooms, filter_noexcl_eq hliveJ, hrooms]
    simp

/-! ### Trace decomposition of a join, and absence of leave side effects -/

/-- A join's trace is either the leave phase plus one `room-full` reply, or
the leave phase plus the admission messages. -/
theorem joinRoom_snd_decomp (st : SState) (c : Nat) (R u : String) :
    (joinRoom st c R u).2 = (joinPhase0 st c).2 ++ [(c, OutMsg.roomFull R MAX_ROOM_SIZE)] ∨
    ∃ st2 : SState, (joinRoom st c R u).2 = (joinPhase0 st c).2 ++ (c, OutMsg.roomJoined R) ::
      (broadcastToRoom st2 R (OutMsg.userJoined u) (some c) ++
       broadcastToRoom st2 R (OutMsg.userCount ((st2.rooms R).getD []).length) none) := by
  unfold joinRoom
  cases hro : (joinPhase0 st c).1.rooms R with
  | none => exact Or.inr ⟨_, joinAdmit_snd _ _ _ _ _⟩
  | some em =>
    dsimp only
    by_cases hlen : MAX_ROOM_SIZE ≤ em.length
    · rw [if_pos hlen]
      exact Or.inl rfl
    · rw [if_neg hlen]
      exact Or.inr ⟨_, joinAdmit_snd _ _ _ _ _⟩

/-- Outbound-message discriminators used to state trace properties. -/
def isRoomFullMsg (p : Nat × OutMsg) : Bool :=
  match p.2 with
  | OutMsg.roomFull _ _ => true
  | _ => false

def isUserLeftMsg (p : Nat × OutMsg) : Bool :=
  match p.2 with
  | OutMsg.userLeft _ => true
  | _ => false

/-- A join by a client whose `roomId` field is falsy emits no `user-left`. -/
theorem joinRoom_no_userLeft_of_falsy {st : SState} {c : Nat} {R u : String}
    (hfal : truthyS (st.cstate c).roomId = false) :
    ∀ p ∈ (joinRoom st c R u).2, isUserLeftMsg p = false := by
  have hp0 : joinPhase0 st c = (st, []) := by
    unfold joinPhase0
    rw [if_neg (by rw [hfal]; exact Bool.false_ne_true)]
  intro p hp
  rcases joinRoom_snd_decomp st c R u with hd | ⟨st2, hd⟩
  · rw [hd, hp0] at hp
    rcases List.mem_append.1 hp with h | h
    · exact absurd h (List.not_mem_nil p)
    · rw [List.mem_singleton.1 h]
      rfl
  · rw [hd, hp0] at hp
    rcases List.mem_append.1 hp with h | h
    · exact absurd h (List.not_mem_nil p)
    · rcases List.mem_cons.1 h with h2 | h2
      · rw [h2]
        rfl
      · rcases List.mem_append.1 h2 with h3 | h3
        · have := mem_broadcast_snd h3
          simp [isUserLeftMsg, this]
        · have := mem_broadcast_snd h3
          simp [isUserLeftMsg, this]

/-! ### Concrete states used by witnesses and counterexamples -/

/-- A well-formed `join-room` frame, as parsed from the wire. -/
def joinFrame (r u : String) : Option Json :=
  some (Json.obj [("type", Json.str "join-room"),
                  ("payload", Json.obj [("roomId", Json.str r), ("username", Json.str u)])])

/-- A `chat` frame (an ordinary relayed frame). -/
def chatFrame : Json :=
  Json.obj [("type", Json.str "chat"), ("payload", Json.obj [("text", Json.str "hi")])]

/-- Valid JSON with no `type` property: fails the documented frame shape. -/
def noTypeFrame : Json := Json.obj [("foo", Json.num 1)]

/-- One idle connected client. -/
def st1c : SState := runEvents initState [Event.connect]

/-- Clients 0 (alice) and 1 (bob) both members of room `"r"`. -/
def stAB : SState :=
  runEvents initState [Event.connect, Event.connect,
    Event.message 0 (joinFrame "r" "alice"), Event.message 1 (joinFrame "r" "bob")]

/-- Like `stAB` plus an idle third client 2. -/
def stC : SState :=
  runEvents initState [Event.connect, Event.connect, Event.connect,
    Event.message 0 (joinFrame "r" "alice"), Event.message 1 (joinFrame "r" "bob")]

/-- Client 0 joined the room named `""` (the empty string is never rejected). -/
def stE : SState :=
  runEvents initState [Event.connect, Event.message 0 (joinFrame "" "al")]

/-- Client 0 joined `""` and then `"x"`: the falsy room id skips the leave. -/
def st9 : SState :=
  runEvents initState [Event.connect, Event.message 0 (joinFrame "" "a"),
    Event.message 0 (joinFrame "x" "a")]

/-- Client 0 joined `""` and disconnected: the close-triggered leave is a
no-op on the falsy room id, so the dead client stays in the member set.
A fresh client 1 is then connected. -/
def stZ : SState :=
  runEvents initState [Event.connect, Event.message 0 (joinFrame "" "al"),
    Event.close 0, Event.connect]

/-- Clients 0 and 1 both members of the room named `""`. -/
def st6 : SState :=
  runEvents initState [Event.connect, Event.connect,
    Event.message 0 (joinFrame "" "al"), Event.message 1 (joinFrame "" "bob")]

theorem reachable_st1c : Reachable st1c :=
  reachable_runEvents _ Reachable.init (by decide)

theorem reachable_stAB : Reachable stAB :=
  reachable_runEvents _ Reachable.init (by decide)

theorem reachable_stC : Reachable stC :=
  reachable_runEvents _ Reachable.init (by decide)

theorem reachable_stE : Reachable stE :=
  reachable_runEvents _ Reachable.init (by decide)

theorem reachable_st9 : Reachable st9 :=
  reachable_runEvents _ Reachable.init (by decide)

theorem reachable_stZ : Reachable stZ :=
  reachable_runEvents _ Reachable.init (by decide)

theorem reachable_st6 : Reachable st6 :=
  reachable_runEvents _ Reachable.init (by decide)

/-! ### The claims -/

/-- Claim C1: in every reachable state of the relay, every room present in
the directory has a member set of size strictly greater than `0` and at most
`MAX_ROOM_SIZE = 2`.  Since every transport event is processed atomically,
the invariant holding in every reachable (post-operation) state is exactly
the statement that a room emptied by a leave or disconnect is deleted within
that same operation. -/
theorem claim1_room_size_invariant {st : SState} (h : Reachable st) :
    ∀ r m, st.rooms r = some m → 0 < m.length ∧ m.length ≤ MAX_ROOM_SIZE := by
  intro r m hm
  have hInv := reachable_inv h
  exact ⟨List.length_pos.2 (hInv.nonempty r m hm), hInv.size r m hm⟩

/-- Claim C1, witness: the invariant evaluated at the concrete reachable state
`stAB`, whose directory holds room `"r"` with members `[0, 1]`. -/
theorem claim1_witness :
    Reachable stAB ∧ stAB.rooms "r" = some [0, 1] ∧
    (0 < ([0, 1] : List Nat).length ∧ ([0, 1] : List Nat).length ≤ MAX_ROOM_SIZE) :=
  ⟨reachable_stAB, by decide, claim1_room_size_invariant reachable_stAB "r" [0, 1] (by decide)⟩

/-- Claim C2, counterexample: in the reachable state `stAB`, room `"r"`
already has `MAX_ROOM_SIZE = 2` members `0` and `1`.  A `join-room` request
from member `1` targets this full room, yet the trace carries zero
`room-full` messages (the code first runs the leave phase, which removes the
requester, after which the room is no longer full and the client is
re-admitted), refuting the claimed exactly-one `room-full` reply for every
join request targeting a full room. -/
theorem claim2_counterexample :
    Reachable stAB ∧ stAB.rooms "r" = some [0, 1] ∧
    ¬((applyEvent stAB (Event.message 1 (joinFrame "r" "bob"))).2.countP isRoomFullMsg = 1) :=
  ⟨reachable_stAB, by decide, by decide⟩

/-- Claim C2 (amended): for every join request from a client that is *not
itself a member* of the target room, targeting a room that already has
`MAX_ROOM_SIZE` members, the operation leaves the target room's directory
entry unchanged and its output is exactly the requester's prior-room leave
side effects followed by a single `room-full` message — carrying the room id
and the capacity limit — to the requester alone. -/
theorem claim2_amended_full_join_rejected {st : SState} {c : Nat} {R : String}
    {m : List Nat} (h : Reachable st) (hm : st.rooms R = some m)
    (hfull : MAX_ROOM_SIZE ≤ m.length) (hcm : c ∉ m) (u : String) :
    joinRoom st c R u =
      ((joinPhase0 st c).1, (joinPhase0 st c).2 ++ [(c, OutMsg.roomFull R MAX_ROOM_SIZE)]) ∧
    (joinRoom st c R u).1.rooms R = st.rooms R := by
  have hInv := reachable_inv h
  have hph : (joinPhase0 st c).1.rooms R = some m := by
    unfold joinPhase0
    by_cases ht : truthyS (st.cstate c).roomId = true
    · rw [if_pos ht]
      have hne2 : (st.cstate c).roomId ≠ some R := by
        intro he
        obtain ⟨rid, hrid, hnee⟩ := (truthyS_eq_true_iff _).1 ht
        rw [hrid] at he
        injection he with he
        subst he
        obtain ⟨m2, hm2, hcm2⟩ := hInv.memOf c rid hrid hnee
        rw [hm] at hm2
        injection hm2 with hm2
        subst hm2
        exact hcm hcm2
      rw [leaveRoom_rooms_other hne2]
      exact hm
    · rw [if_neg ht]
      exact hm
  have hjr : joinRoom st c R u =
      ((joinPhase0 st c).1, (joinPhase0 st c).2 ++ [(c, OutMsg.roomFull R MAX_ROOM_SIZE)]) := by
    unfold joinRoom
    simp only [hph]
    rw [if_pos hfull]
  exact ⟨hjr, by rw [hjr]; exact hph.trans hm.symm⟩

/-- Claim C2, witness: the amended statement applied to the concrete reachable
state `stC` (room `"r"` full with members `0` and `1`, idle client `2`
requesting it). -/
theorem claim2_witness :
    Reachable stC ∧ stC.rooms "r" = some [0, 1] ∧
    MAX_ROOM_SIZE ≤ ([0, 1] : List Nat).length ∧ (2 : Nat) ∉ ([0, 1] : List Nat) ∧
    (joinRoom stC 2 "r" "carol" =
      ((joinPhase0 stC 2).1, (joinPhase0 stC 2).2 ++ [(2, OutMsg.roomFull "r" MAX_ROOM_SIZE)]) ∧
     (joinRoom stC 2 "r" "carol").1.rooms "r" = stC.rooms "r") :=
  ⟨reachable_stC, by decide, by decide, by decide,
   claim2_amended_full_join_rejected (m := [0, 1]) reachable_stC (by decide) (by decide)
     (by decide) "carol"⟩

/-- Claim C3, counterexample: in the reachable state `stAB`, client `0` is
already a member of room `"r"`; the claim says a join request for the room
the client is already in does not trigger a leave, yet handling such a
request emits a `user-left` broadcast — the leave runs whenever the
`roomId` field is truthy, same room or not. -/
theorem claim3_counterexample :
    Reachable stAB ∧ stAB.rooms "r" = some [0, 1] ∧ (stAB.cstate 0).roomId = some "r" ∧
    ¬((applyEvent stAB (Event.message 0 (joinFrame "r" "alice"))).2.countP isUserLeftMsg = 0) :=
  ⟨reachable_stAB, by decide, by decide, by decide⟩

/-- Claim C3 (amended): the leave is executed first exactly when the client's
current-room field is truthy (set and non-empty) — including when it names
the very room being joined, so a same-room join leaves and re-joins.
Stated as: (i) in every reachable state a client belongs to at most one room
with a non-empty id; (ii) when the field is truthy, the join's trace extends
the trace of `leaveRoom` from the same state; (iii) when the field is falsy
(unset or the empty string) the join emits no leave side effect
(`user-left`). -/
theorem claim3_amended_leave_first {st : SState} (h : Reachable st) :
    (∀ c r1 r2 m1 m2, r1 ≠ "" → r2 ≠ "" → st.rooms r1 = some m1 →
      st.rooms r2 = some m2 → c ∈ m1 → c ∈ m2 → r1 = r2) ∧
    (∀ c R u, truthyS (st.cstate c).roomId = true →
      ∃ rest, (joinRoom st c R u).2 = (leaveRoom st c).2 ++ rest) ∧
    (∀ c R u, truthyS (st.cstate c).roomId = false →
      (joinRoom st c R u).2.countP isUserLeftMsg = 0) := by
  have hInv := reachable_inv h
  refine ⟨?_, ?_, ?_⟩
  · intro c r1 r2 m1 m2 h1 h2 hm1 hm2 hc1 hc2
    have b1 := hInv.back r1 m1 c hm1 hc1 h1
    have b2 := hInv.back r2 m2 c hm2 hc2 h2
    rw [b1] at b2
    injection b2
  · intro c R u ht
    obtain ⟨rest, hr⟩ := joinRoom_trace_prefix st c R u
    refine ⟨rest, ?_⟩
    rw [hr]
    congr 1
    unfold joinPhase0
    rw [if_pos ht]
  · intro c R u hfal
    rw [List.countP_eq_zero]
    intro p hp
    rw [joinRoom_no_userLeft_of_falsy hfal p hp]
    exact Bool.false_ne_true

/-- Claim C3, witness: part (ii) of the amended statement applied at the
concrete reachable state `stAB` — client `0` (member of `"r"`) joining
`"r2"` first produces the full `leaveRoom` trace. -/
theorem claim3_witness :
    ∃ rest, (joinRoom stAB 0 "r2" "alice").2 = (leaveRoom stAB 0).2 ++ rest :=
  (claim3_amended_leave_first reachable_stAB).2.1 0 "r2" "alice" (by decide)

/-- Claim C4, counterexample: in the reachable state `stZ`, room `""` still
contains client `0`, whose socket is closed (its disconnect-triggered leave
was a no-op because `""` is falsy, leaving a dead member behind).  Client
`1`'s join of `""` succeeds — the member set becomes `[0, 1]` — yet the
pre-existing member `0` receives no message at all: neither the claimed
`user-joined` notification nor the claimed `room-user-count` broadcast. -/
theorem claim4_counterexample :
    Reachable stZ ∧ stZ.rooms "" = some [0] ∧
    (applyEvent stZ (Event.message 1 (joinFrame "" "bob"))).1.rooms "" = some [0, 1] ∧
    (applyEvent stZ (Event.message 1 (joinFrame "" "bob"))).2.countP (fun p => p.1 == 0) = 0 :=
  ⟨reachable_stZ, by decide, by decide, by decide⟩

/-- Claim C4 (amended to target rooms with a non-empty id, whose members are
guaranteed live): for every successful join, the joiner receives `room-joined`
with the room id; every other pre-existing member (the post-leave-phase member
list) receives `user-joined` with the joiner's name; then every member
including the joiner receives `room-user-count` whose count is the member-set
size after the insertion; and the room's directory entry is the old member
list with the joiner appended. -/
theorem claim4_amended_join_success_effects {st : SState} {c : Nat} {R : String}
    (h : Reachable st) (hopen : (st.cstate c).wsOpen = true) (hne : R ≠ "")
    (hsz : (((joinPhase0 st c).1.rooms R).getD []).length < MAX_ROOM_SIZE) (u : String) :
    (joinRoom st c R u).2 =
      (joinPhase0 st c).2 ++ (c, OutMsg.roomJoined R) ::
        (((((joinPhase0 st c).1.rooms R).getD []).map (fun x => (x, OutMsg.userJoined u))) ++
         (((((joinPhase0 st c).1.rooms R).getD []) ++ [c]).map
           (fun x => (x, OutMsg.userCount
             ((((joinPhase0 st c).1.rooms R).getD []).length + 1))))) ∧
    (joinRoom st c R u).1.rooms R = some ((((joinPhase0 st c).1.rooms R).getD []) ++ [c]) := by
  have hInv0 := joinPhase0_inv (reachable_inv h) c
  have hopen0 : ((joinPhase0 st c).1.cstate c).wsOpen = true := by
    rw [joinPhase0_wsOpen]
    exact hopen
  have hfal0 := joinPhase0_roomId_self st c
  have hspec := joinAdmit_spec hInv0 hopen0 hfal0 hne (joinPhase0 st c).2 u
  unfold joinRoom
  cases hro : (joinPhase0 st c).1.rooms R with
  | none =>
    rw [hro] at hspec
    exact hspec
  | some em =>
    rw [hro] at hspec hsz
    dsimp only
    rw [if_neg (by simpa using Nat.not_le_of_lt (by simpa using hsz))]
    exact hspec

/-- Claim C4, witness: the amended statement applied at the concrete
reachable state `st1c` (client `0` joining the fresh room `"r"`), extracting
the resulting directory entry. -/
theorem claim4_witness :
    (joinRoom st1c 0 "r" "alice").1.rooms "r"
      = some ((((joinPhase0 st1c 0).1.rooms "r").getD []) ++ [0]) :=
  (claim4_amended_join_success_effects reachable_st1c (by decide) (by decide)
    (by decide) "alice").2

/-- Claim C5, counterexample: in the reachable state `stE`, client `0`'s
current-room field is set (to `""`) and the client is in that room's member
set, yet `leaveRoom` is a complete no-op — it does not remove the client,
does not clear the field, sends nothing and deletes nothing — because the
guard `if (!client.roomId) return` treats the empty string as falsy. -/
theorem claim5_counterexample :
    Reachable stE ∧ (stE.cstate 0).roomId = some "" ∧ stE.rooms "" = some [0] ∧
    leaveRoom stE 0 = (stE, []) :=
  ⟨reachable_stE, by decide, by decide, rfl⟩

/-- Claim C5 (amended): leave is a no-op when the client's current-room field
is falsy (unset *or the empty string*); otherwise it removes the client from
its room's member set, clears the current-room and display-name fields,
sends `user-left` with the leaver's display name to every remaining member —
provided that display name is itself truthy — then sends `room-user-count`
with the post-removal size to every remaining member, and deletes the room
from the directory exactly when the member set became empty. -/
theorem claim5_amended_leave_effects {st : SState} (h : Reachable st) (c : Nat) :
    (truthyS (st.cstate c).roomId = false → leaveRoom st c = (st, [])) ∧
    (∀ rid, (st.cstate c).roomId = some rid → rid ≠ "" →
      ∃ m, st.rooms rid = some m ∧ c ∈ m ∧
        (leaveRoom st c).1.rooms rid =
          (if m.erase c = [] then none else some (m.erase c)) ∧
        (leaveRoom st c).1.cstate c = ⟨(st.cstate c).wsOpen, none, none⟩ ∧
        (∀ r2, r2 ≠ rid → (leaveRoom st c).1.rooms r2 = st.rooms r2) ∧
        (∀ x, x ≠ c → (leaveRoom st c).1.cstate x = st.cstate x) ∧
        (leaveRoom st c).2 =
          (if truthyS (st.cstate c).username then
            (m.erase c).map (fun x => (x, OutMsg.userLeft ((st.cstate c).username.getD "")))
          else []) ++
          (m.erase c).map (fun x => (x, OutMsg.userCount (m.erase c).length))) := by
  have hInv := reachable_inv h
  refine ⟨fun hf => leaveRoom_of_falsy hf, ?_⟩
  intro rid hrid hne
  obtain ⟨m, hro, hcm⟩ := hInv.memOf c rid hrid hne
  have hlive : ∀ x ∈ m.erase c, (st.cstate x).wsOpen = true :=
    fun x hx => hInv.live rid m x hro (List.mem_of_mem_erase hx) hne
  refine ⟨m, hro, hcm, ?_, ?_, ?_, ?_, ?_⟩
  · rw [leaveRoom_of_room hrid hne hro]
    by_cases hnil : m.erase c = []
    · rw [if_pos hnil]
      have hlen : (m.erase c).length = 0 := by rw [hnil]; rfl
      simp only [if_pos hlen, clearClient]
      exact updRoom_self _ _ _
    · rw [if_neg hnil]
      have hlen : ¬(m.erase c).length = 0 := by
        intro h0
        exact hnil (List.length_eq_zero.1 h0)
      simp only [if_neg hlen, clearClient]
      exact updRoom_self _ _ _
  · rw [leaveRoom_of_room hrid hne hro]
    by_cases hlen : (m.erase c).length = 0 <;>
      simp [hlen, clearClient, updClient]
  · intro r2 hr2
    refine leaveRoom_rooms_other ?_
    rw [hrid]
    intro he
    injection he with he
    exact hr2 he.symm
  · intro x hxc
    rw [leaveRoom_of_room hrid hne hro]
    by_cases hlen : (m.erase c).length = 0 <;>
      simp [hlen, clearClient, updClient, hxc]
  · rw [leaveRoom_of_room hrid hne hro]
    dsimp only
    congr 1
    · by_cases hu : truthyS (st.cstate c).username = true
      · rw [if_pos hu, if_pos hu]
        exact broadcast_excl_eq hInv hne hro _ c
      · rw [if_neg hu, if_neg hu]
    · rw [broadcastToRoom_of_some _ _
        (show ({ st with rooms := updRoom st.rooms rid (some (m.erase c)) } : SState).rooms rid
          = some (m.erase c) from updRoom_self _ _ _)]
      rw [filter_noexcl_eq (fun x hx => hlive x hx)]

/-- Claim C5, witness: part two of the amended statement applied at the
concrete reachable state `stAB`, client `0` leaving room `"r"`. -/
theorem claim5_witness :
    ∃ m, stAB.rooms "r" = some m ∧ 0 ∈ m ∧
      (leaveRoom stAB 0).1.rooms "r" = (if m.erase 0 = [] then none else some (m.erase 0)) ∧
      (leaveRoom stAB 0).1.cstate 0 = ⟨(stAB.cstate 0).wsOpen, none, none⟩ ∧
      (∀ r2, r2 ≠ "r" → (leaveRoom stAB 0).1.rooms r2 = stAB.rooms r2) ∧
      (∀ x, x ≠ 0 → (leaveRoom stAB 0).1.cstate x = stAB.cstate x) ∧
      (leaveRoom stAB 0).2 =
        (if truthyS (stAB.cstate 0).username then
          (m.erase 0).map (fun x => (x, OutMsg.userLeft ((stAB.cstate 0).username.getD "")))
        else []) ++
        (m.erase 0).map (fun x => (x, OutMsg.userCount (m.erase 0).length)) :=
  (claim5_amended_leave_effects reachable_stAB 0).2 "r" (by decide) (by decide)

/-- Claim C6, counterexample: in the reachable state `st6`, clients `0` and
`1` are both members of room `""` and client `0`'s current-room field is set
(to `""`), yet a `chat` frame from `0` is dropped — the other member `1`
receives nothing — because the relay guard `else if (client.roomId)` treats
the empty string as falsy. -/
theorem claim6_counterexample :
    Reachable st6 ∧ st6.rooms "" = some [0, 1] ∧ (st6.cstate 0).roomId = some "" ∧
    wfEvent st6 (Event.message 0 (some chatFrame)) = true ∧
    (applyEvent st6 (Event.message 0 (some chatFrame))).2 = [] :=
  ⟨reachable_st6, by decide, by decide, by decide, rfl⟩

/-- Claim C6 (amended): a non-`join-room` frame from a client whose
current-room field is truthy (set and non-empty) is forwarded, unchanged, to
exactly the other members of that room, in member order, and the state is
untouched; a frame from a client whose field is falsy (unset or the empty
string) is dropped with no reply. -/
theorem claim6_amended_relay_delivery {st : SState} {c : Nat} {msg : Json}
    (h : Reachable st) (hnn : msg ≠ Json.null) (hnj : isJoinType msg = false) :
    (∀ rid, (st.cstate c).roomId = some rid → rid ≠ "" →
      ∃ mem, st.rooms rid = some mem ∧
        handleMessage st c (some msg)
          = (st, (mem.erase c).map (fun x => (x, OutMsg.relay msg)))) ∧
    (truthyS (st.cstate c).roomId = false → handleMessage st c (some msg) = (st, [])) := by
  have hInv := reachable_inv h
  rw [handleMessage_relay_eq hnn hnj]
  constructor
  · intro rid hrid hne
    obtain ⟨mem, hro, _⟩ := hInv.memOf c rid hrid hne
    refine ⟨mem, hro, ?_⟩
    unfold relayFrame
    rw [hrid]
    rw [if_pos (truthyS_some_of_ne hne)]
    rw [Option.getD_some]
    rw [broadcast_excl_eq hInv hne hro]
  · intro hfal
    unfold relayFrame
    rw [if_neg (by rw [hfal]; exact Bool.false_ne_true)]

/-- Claim C6, witness: the amended statement applied at the concrete
reachable state `stAB` — a `chat` frame from member `0` of room `"r"` is
relayed to exactly the other member `1`. -/
theorem claim6_witness :
    ∃ mem, stAB.rooms "r" = some mem ∧
      handleMessage stAB 0 (some chatFrame)
        = (stAB, (mem.erase 0).map (fun x => (x, OutMsg.relay chatFrame))) :=
  (claim6_amended_relay_delivery reachable_stAB (fun he => Json.noConfusion he)
    (by decide)).1 "r" (by decide) (by decide)

/-- Claim C7, counterexample: the frame `{"foo": 1}` parses as JSON but fails
the documented shape `{type: string, payload?: object}` (it has no `type`
property).  The claim says such a frame is dropped with no message to any
client; in the reachable state `stAB` the relay instead forwards it to the
other room member `1`. -/
theorem claim7_counterexample :
    Reachable stAB ∧ wfEvent stAB (Event.message 0 (some noTypeFrame)) = true ∧
    (applyEvent stAB (Event.message 0 (some noTypeFrame))).2
      = [(1, OutMsg.relay noTypeFrame)] :=
  ⟨reachable_stAB, by decide, rfl⟩

/-- Claim C7 (amended): the frames the handler drops — with no state change,
no reply to anyone, and the connection left open — are those on which
processing throws and is caught: input that fails `JSON.parse`, the JSON
literal `null`, and a `join-room` frame whose `payload` property is absent or
`null`.  A frame that parses to JSON but has *no string `type` property* —
thereby failing the shape `{type: string, payload?: object}` — is not
dropped: it is passed to the relay arm exactly like an ordinary non-join
frame.  (A frame whose `type` is the string `"join-room"` but whose payload
is a non-`null` non-object, or an object without string `roomId`/`username`
fields, proceeds into the join logic with raw JS values; that family is
outside this embedding and nothing is claimed about it.) -/
theorem claim7_amended_malformed_dropped (st : SState) (c : Nat) :
    handleMessage st c none = (st, []) ∧
    handleMessage st c (some Json.null) = (st, []) ∧
    (∀ msg, isJoinType msg = true → jsGet msg "payload" = none →
      handleMessage st c (some msg) = (st, [])) ∧
    (∀ msg, isJoinType msg = true → jsGet msg "payload" = some Json.null →
      handleMessage st c (some msg) = (st, [])) ∧
    (∀ msg, msg ≠ Json.null → hasStringType msg = false →
      handleMessage st c (some msg) = relayFrame st c msg) := by
  refine ⟨rfl, rfl, ?_, ?_, ?_⟩
  · intro msg hj hp
    cases msg with
    | null => simp [isJoinType, jsGet] at hj
    | bool b => simp [isJoinType, jsGet] at hj
    | num n => simp [isJoinType, jsGet] at hj
    | str s => simp [isJoinType, jsGet] at hj
    | arr elems => simp [isJoinType, jsGet] at hj
    | obj fields =>
      cases hty : jsGet (Json.obj fields) "type" with
      | none => rw [isJoinType, hty] at hj; exact absurd hj Bool.false_ne_true
      | some v =>
        cases v with
        | str s =>
          have hs : s = "join-room" := by
            rw [isJoinType, hty] at hj
            simpa using hj
          simp [handleMessage, hty, hs, hp]
        | null => rw [isJoinType, hty] at hj; exact absurd hj Bool.false_ne_true
        | bool b => rw [isJoinType, hty] at hj; exact absurd hj Bool.false_ne_true
        | num n => rw [isJoinType, hty] at hj; exact absurd hj Bool.false_ne_true
        | arr elems => rw [isJoinType, hty] at hj; exact absurd hj Bool.false_ne_true
        | obj fs => rw [isJoinType, hty] at hj; exact absurd hj Bool.false_ne_true
  · intro msg hj hp
    cases msg with
    | null => simp [isJoinType, jsGet] at hj
    | bool b => simp [isJoinType, jsGet] at hj
    | num n => simp [isJoinType, jsGet] at hj
    | str s => simp [isJoinType, jsGet] at hj
    | arr elems => simp [isJoinType, jsGet] at hj
    | obj fields =>
      cases hty : jsGet (Json.obj fields) "type" with
      | none => rw [isJoinType, hty] at hj; exact absurd hj Bool.false_ne_true
      | some v =>
        cases v with
        | str s =>
          have hs : s = "join-room" := by
            rw [isJoinType, hty] at hj
            simpa using hj
          simp [handleMessage, hty, hs, hp]
        | null => rw [isJoinType, hty] at hj; exact absurd hj Bool.false_ne_true
        | bool b => rw [isJoinType, hty] at hj; exact absurd hj Bool.false_ne_true
        | num n => rw [isJoinType, hty] at hj; exact absurd hj Bool.false_ne_true
        | arr elems => rw [isJoinType, hty] at hj; exact absurd hj Bool.false_ne_true
        | obj fs => rw [isJoinType, hty] at hj; exact absurd hj Bool.false_ne_true
  · intro msg hnn hnt
    have hnj : isJoinType msg = false := by
      unfold isJoinType
      unfold hasStringType at hnt
      cases hty : jsGet msg "type" with
      | none => rfl
      | some v =>
        rw [hty] at hnt
        cases v with
        | str s => simp at hnt
        | null => rfl
        | bool b => rfl
        | num n => rfl
        | arr elems => rfl
        | obj fs => rfl
    exact handleMessage_relay_eq hnn hnj

/-- Claim C7, witness: the amended statement applied at the concrete
reachable state `stAB` — a `join-room` frame carrying no payload is dropped,
and the typeless frame `{"foo": 1}` is passed to the relay arm. -/
theorem claim7_witness :
    handleMessage stAB 0 (some (Json.obj [("type", Json.str "join-room")])) = (stAB, []) ∧
    handleMessage stAB 0 (some noTypeFrame) = relayFrame stAB 0 noTypeFrame :=
  ⟨(claim7_amended_malformed_dropped stAB 0).2.2.1
     (Json.obj [("type", Json.str "join-room")]) (by decide) rfl,
   (claim7_amended_malformed_dropped stAB 0).2.2.2.2 noTypeFrame
     (fun he => Json.noConfusion he) (by decide)⟩

/-- Claim C8: the transport close handler runs the Room Directory leave for
the disconnecting client exactly once and nothing else touches the rooms:
from any state, its sent-message trace is identical to that of an explicit
`leaveRoom` of the same client, the resulting directory is identical, and
every client's current-room and display-name fields are identical — the
close additionally only marks the closed socket (registry removal). -/
theorem claim8_close_equals_leave (st : SState) (c : Nat) :
    (handleClose st c).2 = (leaveRoom st c).2 ∧
    (handleClose st c).1.rooms = (leaveRoom st c).1.rooms ∧
    (∀ x, ((handleClose st c).1.cstate x).roomId = ((leaveRoom st c).1.cstate x).roomId) ∧
    (∀ x, ((handleClose st c).1.cstate x).username
      = ((leaveRoom st c).1.cstate x).username) := by
  refine ⟨rfl, rfl, handleClose_roomId st c, ?_⟩
  intro x
  unfold handleClose
  by_cases hxc : x = c <;> simp [updClient, hxc]

/-- Claim C9, counterexample: the reachable state `st9` (client `0` joined
room `""`, then room `"x"`): the client sits in *two* member sets, and its
current-room field (`"x"`) disagrees with its membership in `""` — refuting
the claimed directory/back-reference agreement for all rooms. -/
theorem claim9_counterexample :
    Reachable st9 ∧ st9.rooms "" = some [0] ∧ st9.rooms "x" = some [0] ∧
    (st9.cstate 0).roomId = some "x" :=
  ⟨reachable_st9, by decide, by decide, by decide⟩

/-- Claim C9 (amended to rooms with a non-empty id): in every reachable
state, for every client `c` and every non-empty room id `r`, the client's
current-room field equals `r` exactly when `c` is in the member set the
directory stores for `r`; hence no client appears in two such rooms.  The
empty-string room is exempt: its falsy id defeats the bookkeeping guards. -/
theorem claim9_amended_membership_iff {st : SState} (h : Reachable st) :
    ∀ c r, r ≠ "" →
      ((st.cstate c).roomId = some r ↔ ∃ m, st.rooms r = some m ∧ c ∈ m) := by
  have hInv := reachable_inv h
  intro c r hr
  constructor
  · intro hc
    exact hInv.memOf c r hc hr
  · rintro ⟨m, hm, hcm⟩
    exact hInv.back r m c hm hcm hr

/-- Claim C9, witness: the amended equivalence applied at the concrete
reachable state `stAB`, client `0`, room `"r"`. -/
theorem claim9_witness :
    (stAB.cstate 0).roomId = some "r" ↔ ∃ m, stAB.rooms "r" = some m ∧ 0 ∈ m :=
  claim9_amended_membership_iff reachable_stAB 0 "r" (by decide)

/-- Claim C10: handling any inbound frame whose `type` is not the string
`"join-room"` — including a `"leave-room"` frame, which the server does not
interpret, and any malformed frame — returns the state unchanged: the rooms
directory, every member set, and every client's fields are untouched.
(The only message-driven mutation is `join-room`; membership otherwise
changes only on transport close.) -/
theorem claim10_nonjoin_frames_pure (st : SState) (c : Nat) (d : Option Json)
    (hnj : ∀ msg, d = some msg → isJoinType msg = false) :
    (handleMessage st c d).1 = st := by
  cases d with
  | none => rfl
  | some msg =>
    have h := hnj msg rfl
    cases msg with
    | null => rfl
    | bool b => rw [handleMessage_relay_eq (fun he => Json.noConfusion he) h, relayFrame_fst]
    | num n => rw [handleMessage_relay_eq (fun he => Json.noConfusion he) h, relayFrame_fst]
    | str s => rw [handleMessage_relay_eq (fun he => Json.noConfusion he) h, relayFrame_fst]
    | arr elems =>
      rw [handleMessage_relay_eq (fun he => Json.noConfusion he) h, relayFrame_fst]
    | obj fields =>
      rw [handleMessage_relay_eq (fun he => Json.noConfusion he) h, relayFrame_fst]

/-- Claim C10, witness: a `"leave-room"` frame handled in the concrete
reachable state `stAB` leaves the state unchanged. -/
theorem claim10_witness :
    (handleMessage stAB 0
      (some (Json.obj [("type", Json.str "leave-room")]))).1 = stAB :=
  claim10_nonjoin_frames_pure stAB 0 (some (Json.obj [("type", Json.str "leave-room")]))
    (fun msg hm => by
      injection hm with hm
      rw [← hm]
      decide)

end SignalingServer
